import Mathlib

/-!
Shallow embedding of the numeric core of `plot.py`: the Smoother
(`smooth_reward_curve`), the Aligner (`pad`) and the Aggregator
(`plot_with_iqr`), together with theorems checking the specified
properties of these components.

Floating-point values are modelled by rationals; the NaN sentinel used
for padding and for missing statistics is modelled by `none` in
`Option ℚ`.
-/

namespace Plot

/-- Full discrete convolution of two rational sequences, as computed by
`np.convolve` in its default mode: for `a` of length `n` and `v` of
length `m` the output has `n + m - 1` positions, and position `t` sums
`a[j] * v[t - j]` over the indices where both factors exist. -/
def convFull (a v : List ℚ) : List ℚ :=
  (List.range (a.length + v.length - 1)).map fun t =>
    ∑ j ∈ Finset.range a.length,
      if j ≤ t ∧ t - j < v.length then a.getD j 0 * v.getD (t - j) 0 else 0

/-- `np.convolve` with `mode='same'`: the centred `max n m` entries of the
full convolution, dropping `(min n m - 1) / 2` leading entries. -/
def convSame (a v : List ℚ) : List ℚ :=
  ((convFull a v).drop ((min a.length v.length - 1) / 2)).take (max a.length v.length)

/-- `smooth_reward_curve` from `plot.py` lines 7-16.  `len_m` is `a_range`
when given, else `len(x)`; the half width is `ceil(len_m / 100)`; the
kernel is a vector of ones of width `padding * k + 1`; `y` is smoothed by
dividing the value convolution by the convolution of an all-ones signal
(`np.ones_like(y)`) with the same kernel; `x` is returned unchanged. -/
def smooth_reward_curve (x y : List ℚ) (padding : ℕ) (a_range : Option ℕ) :
    List ℚ × List ℚ :=
  let len_m := a_range.getD x.length
  let halfwidth := (len_m + 99) / 100
  let k := halfwidth
  let xsmoo := x
  let ysmoo := List.zipWith (fun a b => a / b)
    (convSame y (List.replicate (padding * k + 1) 1))
    (convSame (List.replicate y.length 1) (List.replicate (padding * k + 1) 1))
  (xsmoo, ysmoo)

/-- Failure kinds of the core.  The only failure the code can actually
produce is the one raised by `np.max` on an empty list inside `pad`,
which the specification calls `EmptyInput`. -/
inductive PlotError
  | EmptyInput
  deriving DecidableEq

/-- `np.max([len(x) for x in xs])`, the `maxlen` computed in `pad`
(`plot.py` line 19). -/
def padMaxlen {E : Type} (xs : List (List E)) : ℕ :=
  (xs.map List.length).foldl max 0

/-- `pad` from `plot.py` lines 18-32.  The element type is polymorphic so
that numpy arrays with trailing dimensions (vector-valued steps) are
covered; `value` is the sentinel element appended to short rows.  The
loop appends each row, padded to `maxlen` when shorter, and records in
`index` (and `max_index`) the index of every row whose length reaches
`maxlen`, so both end up at the last such row.  On an empty input
`np.max` raises, modelled as the `EmptyInput` error. -/
def pad {E : Type} (xs : List (List E)) (value : E) :
    Except PlotError (List (List E) × Int × ℕ) :=
  if xs.isEmpty then .error .EmptyInput
  else
    let maxlen := padMaxlen xs
    let padded_xs := xs.map fun x =>
      if maxlen ≤ x.length then x
      else x ++ List.replicate (maxlen - x.length) value
    let index := xs.enum.foldl
      (fun acc p => if maxlen ≤ p.2.length then (p.1 : Int) else acc) (-1)
    let max_index := xs.enum.foldl
      (fun acc p => if maxlen ≤ p.2.length then p.1 else acc) 0
    .ok (padded_xs, index, max_index)

/-- Linear interpolation between order statistics of an already sorted
list, as `np.percentile` does: the (rational) position is
`q * (m - 1) / 100`, and the result interpolates between the entries at
its floor and the next index. -/
def interpSorted (q : ℚ) (s : List ℚ) : ℚ :=
  let m := s.length
  let h : ℚ := q * ((m : ℚ) - 1) / 100
  let i : ℕ := (Int.floor h).toNat
  s.getD i 0 + (h - (i : ℚ)) * (s.getD (i + 1) 0 - s.getD i 0)

/-- `np.nanpercentile` on one column: drop the sentinel (`none`) entries,
and if nothing remains the result is the sentinel; otherwise sort the
values and interpolate linearly. -/
def nanpercentile (q : ℚ) (col : List (Option ℚ)) : Option ℚ :=
  let vs := col.filterMap id
  if vs.isEmpty then none
  else some (interpSorted q (vs.insertionSort (fun a b => a ≤ b)))

/-- `np.nanmedian` on one column: drop the sentinel entries; if nothing
remains the result is the sentinel; otherwise sort and take the middle
value, averaging the two middle values for an even count. -/
def nanmedian (col : List (Option ℚ)) : Option ℚ :=
  let vs := col.filterMap id
  if vs.isEmpty then none
  else
    let s := vs.insertionSort (fun a b => a ≤ b)
    let m := s.length
    some (if m % 2 = 1 then s.getD (m / 2) 0
          else (s.getD (m / 2 - 1) 0 + s.getD (m / 2) 0) / 2)

/-- The data handed to the renderer by `plot_with_iqr`: the reference
x-sequence and the three per-column statistics curves. -/
structure SummaryCurve where
  x : List (Option ℚ)
  median : List (Option ℚ)
  q25 : List (Option ℚ)
  q75 : List (Option ℚ)
  deriving DecidableEq

/-- Column `j` of a padded block (`padded_ys[:, j]`). -/
def column (rows : List (List (Option ℚ))) (j : ℕ) : List (Option ℚ) :=
  rows.map fun row => row.getD j none

/-- `plot_with_iqr` from `plot.py` lines 54-61, up to the renderer: pad
the x-arrays and the y-arrays (sentinel `np.nan`, modelled as `none`),
take the per-column nan-median and nan-percentiles of the padded
y-block, and attach `xs[index]` as x-sequence. -/
def plot_with_iqr (xs ys : List (List ℚ)) : Except PlotError SummaryCurve :=
  match pad (xs.map (List.map some)) none, pad (ys.map (List.map some)) none with
  | .ok (pxs, index, _), .ok (pys, _, _) =>
      let L := padMaxlen (ys.map (List.map some))
      .ok { x := pxs.getD index.toNat [],
            median := (List.range L).map fun j => nanmedian (column pys j),
            q25 := (List.range L).map fun j => nanpercentile 25 (column pys j),
            q75 := (List.range L).map fun j => nanpercentile 75 (column pys j) }
  | .error e, _ => .error e
  | _, .error e => .error e

/-- Modelled from the spec: the conventional percentile of a plain bag of
values — sort, then interpolate linearly between order statistics — with
no sentinel handling; empty input yields the not-a-number sentinel. -/
def percentileSpec (q : ℚ) (vs : List ℚ) : Option ℚ :=
  if vs.isEmpty then none
  else some (interpSorted q (vs.insertionSort (fun a b => a ≤ b)))

/-! ### Helper lemmas -/

lemma getD_eq_getElem {α : Type} (l : List α) (d : α) {i : ℕ} (h : i < l.length) :
    l.getD i d = l[i] := by
  rw [List.getD_eq_getElem?_getD, List.getElem?_eq_getElem h, Option.getD_some]

lemma le_foldl_max (l : List ℕ) (a : ℕ) : a ≤ l.foldl max a := by
  induction l generalizing a with
  | nil => exact le_refl a
  | cons x l ih => exact le_trans (le_max_left a x) (ih (max a x))

lemma mem_le_foldl_max (l : List ℕ) (a : ℕ) : ∀ x ∈ l, x ≤ l.foldl max a := by
  induction l generalizing a with
  | nil => intro x hx; cases hx
  | cons y l ih =>
    intro x hx
    rcases List.mem_cons.mp hx with h | h
    · subst h; exact le_trans (le_max_right a x) (le_foldl_max l (max a x))
    · exact ih (max a y) x h

lemma foldl_max_attained (l : List ℕ) (a : ℕ) :
    l.foldl max a = a ∨ ∃ x ∈ l, l.foldl max a = x := by
  induction l generalizing a with
  | nil => left; rfl
  | cons y l ih =>
    rcases ih (max a y) with h | ⟨x, hx, hex⟩
    · rcases max_choice a y with hm | hm
      · left; rw [List.foldl_cons, h, hm]
      · right; exact ⟨y, List.mem_cons_self y l, by rw [List.foldl_cons, h, hm]⟩
    · right; exact ⟨x, List.mem_cons_of_mem y hx, by rw [List.foldl_cons]; exact hex⟩

lemma padMaxlen_le {E : Type} (xs : List (List E)) :
    ∀ x ∈ xs, x.length ≤ padMaxlen xs := by
  intro x hx
  exact mem_le_foldl_max (xs.map List.length) 0 x.length (List.mem_map_of_mem List.length hx)

lemma padMaxlen_attained {E : Type} (xs : List (List E)) (h : xs ≠ []) :
    ∃ x ∈ xs, x.length = padMaxlen xs := by
  rcases foldl_max_attained (xs.map List.length) 0 with h0 | ⟨n, hn, hex⟩
  · rcases xs with _ | ⟨x, l⟩
    · exact absurd rfl h
    · refine ⟨x, List.mem_cons_self x l, ?_⟩
      have hle := padMaxlen_le (x :: l) x (List.mem_cons_self x l)
      have : padMaxlen (x :: l) = 0 := h0
      omega
  · rcases List.mem_map.mp hn with ⟨x, hx, hlen⟩
    exact ⟨x, hx, by rw [← hlen] at hex; exact hex.symm ▸ rfl⟩

lemma pad_eq_ok {E : Type} (xs : List (List E)) (v : E) (h : xs ≠ []) :
    pad xs v = .ok
      (xs.map (fun x => x ++ List.replicate (padMaxlen xs - x.length) v),
       xs.enum.foldl (fun acc p => if padMaxlen xs ≤ p.2.length then (p.1 : Int) else acc) (-1),
       xs.enum.foldl (fun acc p => if padMaxlen xs ≤ p.2.length then p.1 else acc) 0) := by
  have hne : xs.isEmpty = false := List.isEmpty_eq_false.mpr h
  have hm : xs.map (fun x => if padMaxlen xs ≤ x.length then x
        else x ++ List.replicate (padMaxlen xs - x.length) v)
      = xs.map (fun x => x ++ List.replicate (padMaxlen xs - x.length) v) :=
    List.map_congr_left (fun x _ => by
      by_cases hle : padMaxlen xs ≤ x.length
      · simp [hle, Nat.sub_eq_zero_of_le hle]
      · simp [hle])
  simp only [pad, hne, Bool.false_eq_true, if_false, hm]

lemma pad_singleton {E : Type} (l : List E) (v : E) : pad [l] v = .ok ([l], 0, 0) := by
  have h1 : padMaxlen [l] = l.length := by simp [padMaxlen]
  simp [pad, h1, List.enum, List.enumFrom]

/-- C4: the Aligner fails with `EmptyInput` exactly on the empty
collection; every non-empty collection is padded successfully. -/
theorem pad_empty_input :
    (∀ (E : Type) (v : E), pad ([] : List (List E)) v = .error .EmptyInput) ∧
    (∀ (E : Type) (xs : List (List E)) (v : E), xs ≠ [] →
      ∃ r, pad xs v = .ok r) := by
  constructor
  · intro E v; rfl
  · intro E xs v h
    exact ⟨_, pad_eq_ok xs v h⟩

theorem pad_empty_input_witness :
    pad ([] : List (List ℚ)) (0 : ℚ) = .error .EmptyInput ∧
    ∃ r, pad [[(3 : ℚ)]] (0 : ℚ) = .ok r :=
  ⟨pad_empty_input.1 ℚ 0, pad_empty_input.2 ℚ [[3]] 0 (by simp)⟩

/-- C1 counterexample: with two runs of equal (maximal) length, the code
returns `longest_index = 1`, the index of the LAST run of maximal
length, not the first (which would be `0`). -/
theorem pad_longest_counterexample :
    pad [[(1 : ℚ)], [2]] 0 = .ok ([[(1 : ℚ)], [2]], 1, 1) ∧ (1 : Int) ≠ 0 :=
  ⟨rfl, by decide⟩

lemma foldl_lastIdx_none {E : Type} (M : ℕ) (l : List (List E)) :
    ∀ (k : ℕ) (acc : Int),
      (∀ x ∈ l, x.length < M) →
      (List.enumFrom k l).foldl
        (fun a p => if M ≤ p.2.length then (p.1 : Int) else a) acc = acc := by
  induction l with
  | nil => intro k acc _; rfl
  | cons x l ih =>
    intro k acc h
    have hx : x.length < M := h x (List.mem_cons_self x l)
    rw [List.enumFrom_cons, List.foldl_cons]
    have : (if M ≤ x.length then (k : Int) else acc) = acc := if_neg (by omega)
    rw [this]
    exact ih (k + 1) acc (fun y hy => h y (List.mem_cons_of_mem x hy))

lemma foldl_lastIdx_some {E : Type} (M : ℕ) (l : List (List E)) :
    ∀ (k : ℕ) (acc : Int),
      (∃ x ∈ l, M ≤ x.length) →
      ∃ j : ℕ, j < l.length ∧
        (List.enumFrom k l).foldl
          (fun a p => if M ≤ p.2.length then (p.1 : Int) else a) acc = ((k + j : ℕ) : Int) ∧
        M ≤ (l.getD j []).length ∧
        ∀ j2 : ℕ, j < j2 → j2 < l.length → (l.getD j2 []).length < M := by
  induction l with
  | nil => intro k acc h; simp at h
  | cons x l ih =>
    intro k acc h
    by_cases hl : ∃ y ∈ l, M ≤ y.length
    · obtain ⟨j, hj, hfold, hlen, hafter⟩ := ih (k + 1) (if M ≤ x.length then (k : Int) else acc) hl
      refine ⟨j + 1, by simpa using Nat.succ_lt_succ hj, ?_, ?_, ?_⟩
      · rw [List.enumFrom_cons, List.foldl_cons]
        have hcast : ((k + 1 + j : ℕ) : Int) = ((k + (j + 1) : ℕ) : Int) := by push_cast; ring
        rw [← hcast]
        exact hfold
      · simpa using hlen
      · intro j2 h1 h2
        cases j2 with
        | zero => omega
        | succ j2 =>
          have := hafter j2 (by omega) (by simpa using Nat.lt_of_succ_lt_succ h2)
          simpa using this
    · push_neg at hl
      obtain ⟨y, hy, hylen⟩ := h
      have hx : M ≤ x.length := by
        rcases List.mem_cons.mp hy with hh | hmem
        · rw [← hh]; exact hylen
        · exact absurd hylen (not_le.mpr (hl y hmem))
      refine ⟨0, Nat.succ_pos _, ?_, by simpa using hx, ?_⟩
      · rw [List.enumFrom_cons, List.foldl_cons, if_pos hx,
            foldl_lastIdx_none M l (k + 1) (k : Int) (fun z hz => hl z hz)]
        norm_num
      · intro j2 h1 h2
        cases j2 with
        | zero => omega
        | succ j2 =>
          have hj2 : j2 < l.length := by simpa using Nat.lt_of_succ_lt_succ h2
          have hmem : l.getD j2 [] ∈ l := by
            rw [getD_eq_getElem l [] hj2]
            exact List.getElem_mem hj2
          simpa using hl (l.getD j2 []) hmem

lemma plot_with_iqr_eq (xs ys : List (List ℚ)) {pxs pys : List (List (Option ℚ))}
    {ix iy : Int} {mx my : ℕ}
    (hx : pad (xs.map (List.map some)) none = .ok (pxs, ix, mx))
    (hy : pad (ys.map (List.map some)) none = .ok (pys, iy, my)) :
    plot_with_iqr xs ys = .ok
      { x := pxs.getD ix.toNat [],
        median := (List.range (padMaxlen (ys.map (List.map some)))).map
          (fun j => nanmedian (column pys j)),
        q25 := (List.range (padMaxlen (ys.map (List.map some)))).map
          (fun j => nanpercentile 25 (column pys j)),
        q75 := (List.range (padMaxlen (ys.map (List.map some)))).map
          (fun j => nanpercentile 75 (column pys j)) } := by
  unfold plot_with_iqr
  rw [hx, hy]

lemma plot_with_iqr_err_left (xs ys : List (List ℚ)) (e : PlotError)
    (hx : pad (xs.map (List.map some)) none = .error e) :
    plot_with_iqr xs ys = .error e := by
  unfold plot_with_iqr
  rw [hx]
  rcases pad (ys.map (List.map some)) (none : Option ℚ) with e2 | ⟨pys, iy, my⟩ <;> rfl

lemma plot_with_iqr_err_right (xs ys : List (List ℚ)) (e : PlotError)
    {px : List (List (Option ℚ)) × Int × ℕ}
    (hx : pad (xs.map (List.map some)) none = .ok px)
    (hy : pad (ys.map (List.map some)) none = .error e) :
    plot_with_iqr xs ys = .error e := by
  unfold plot_with_iqr
  rw [hx, hy]

/-- C1 (amended): `longest_index` is the index of the LAST input sequence
achieving the maximal length (every later sequence is strictly shorter),
and the Aggregator's x-sequence is row `longest_index` of the padded
x-block. -/
theorem pad_longest_index_last :
    (∀ (E : Type) (xs : List (List E)) (v : E) (p : List (List E)) (i : Int) (m : ℕ),
      pad xs v = .ok (p, i, m) →
      ∃ j : ℕ, i = (j : Int) ∧ j < xs.length ∧
        (xs.getD j []).length = padMaxlen xs ∧
        ∀ j2 : ℕ, j < j2 → j2 < xs.length → (xs.getD j2 []).length < padMaxlen xs) ∧
    (∀ (xs ys : List (List ℚ)) (s : SummaryCurve),
      plot_with_iqr xs ys = .ok s →
      ∃ (p : List (List (Option ℚ))) (i : Int) (m : ℕ),
        pad (xs.map (List.map some)) none = .ok (p, i, m) ∧
        s.x = p.getD i.toNat []) := by
  constructor
  · intro E xs v p i m hok
    have hne : xs ≠ [] := by
      intro hnil
      rw [hnil] at hok
      exact absurd hok (by simp [pad])
    rw [pad_eq_ok xs v hne] at hok
    have hi : i = xs.enum.foldl
        (fun acc p => if padMaxlen xs ≤ p.2.length then (p.1 : Int) else acc) (-1) := by
      have := (Except.ok.injEq _ _).mp hok
      exact (congrArg (fun t => t.2.1) this).symm
    obtain ⟨x, hx, hxl⟩ := padMaxlen_attained xs hne
    have hex : ∃ x ∈ xs, padMaxlen xs ≤ x.length := ⟨x, hx, le_of_eq hxl.symm⟩
    obtain ⟨j, hj, hfold, hlen, hafter⟩ := foldl_lastIdx_some (padMaxlen xs) xs 0 (-1) hex
    refine ⟨j, ?_, hj, ?_, hafter⟩
    · rw [hi]
      have henum : xs.enum = List.enumFrom 0 xs := rfl
      rw [henum, hfold]
      norm_num
    · have hle : (xs.getD j []).length ≤ padMaxlen xs := by
        apply padMaxlen_le
        rw [getD_eq_getElem xs [] hj]
        exact List.getElem_mem hj
      omega
  · intro xs ys s hok
    rcases hpx : pad (xs.map (List.map some)) (none : Option ℚ) with e | ⟨pxs, ix, mx⟩
    · rw [plot_with_iqr_err_left xs ys e hpx] at hok
      cases hok
    · rcases hpy : pad (ys.map (List.map some)) (none : Option ℚ) with e | ⟨pys, iy, my⟩
      · rw [plot_with_iqr_err_right xs ys e hpx hpy] at hok
        cases hok
      · rw [plot_with_iqr_eq xs ys hpx hpy] at hok
        have hs := (Except.ok.injEq _ _).mp hok
        refine ⟨pxs, ix, mx, rfl, ?_⟩
        rw [← hs]

theorem pad_longest_index_last_witness :
    ∃ j : ℕ, (1 : Int) = (j : Int) ∧ j < ([[(1 : ℚ)], [2]] : List (List ℚ)).length ∧
      (([[(1 : ℚ)], [2]] : List (List ℚ)).getD j []).length = padMaxlen [[(1 : ℚ)], [2]] ∧
      ∀ j2 : ℕ, j < j2 → j2 < ([[(1 : ℚ)], [2]] : List (List ℚ)).length →
        (([[(1 : ℚ)], [2]] : List (List ℚ)).getD j2 []).length < padMaxlen [[(1 : ℚ)], [2]] :=
  pad_longest_index_last.1 ℚ [[1], [2]] 0 [[1], [2]] 1 1 rfl

/-- C6: the padded output has one row per input, each row of length
`maxlen`: the original sequence followed by sentinel entries; for
vector-valued steps the sentinel element keeps the trailing dimension, so
only the leading axis is extended. -/
theorem pad_shape :
    (∀ (E : Type) (xs : List (List E)) (v : E) (p : List (List E)) (i : Int) (m : ℕ),
      pad xs v = .ok (p, i, m) →
      p.length = xs.length ∧
      ∀ j : ℕ, j < xs.length →
        p.getD j [] = xs.getD j [] ++ List.replicate (padMaxlen xs - (xs.getD j []).length) v ∧
        (p.getD j []).length = padMaxlen xs) ∧
    (∀ (d : ℕ) (c : ℚ) (xs : List (List (List ℚ))) (p : List (List (List ℚ)))
        (i : Int) (m : ℕ),
      (∀ row ∈ xs, ∀ e ∈ row, e.length = d) →
      pad xs (List.replicate d c) = .ok (p, i, m) →
      ∀ row ∈ p, ∀ e ∈ row, e.length = d) := by
  have main : ∀ (E : Type) (xs : List (List E)) (v : E) (p : List (List E)) (i : Int) (m : ℕ),
      pad xs v = .ok (p, i, m) →
      p = xs.map (fun x => x ++ List.replicate (padMaxlen xs - x.length) v) := by
    intro E xs v p i m hok
    have hne : xs ≠ [] := by
      intro hnil
      rw [hnil] at hok
      exact absurd hok (by simp [pad])
    rw [pad_eq_ok xs v hne] at hok
    have := (Except.ok.injEq _ _).mp hok
    exact (congrArg (fun t => t.1) this).symm
  constructor
  · intro E xs v p i m hok
    have hp := main E xs v p i m hok
    subst hp
    refine ⟨by simp, ?_⟩
    intro j hj
    have hj2 : j < (xs.map (fun x => x ++ List.replicate (padMaxlen xs - x.length) v)).length := by
      simpa using hj
    rw [getD_eq_getElem _ [] hj2, getD_eq_getElem xs [] hj, List.getElem_map]
    refine ⟨rfl, ?_⟩
    have hle : xs[j].length ≤ padMaxlen xs := padMaxlen_le xs xs[j] (List.getElem_mem hj)
    simp [List.length_append]
    omega
  · intro d c xs p i m hdim hok
    have hp := main (List ℚ) xs (List.replicate d c) p i m hok
    subst hp
    intro row hrow e he
    rcases List.mem_map.mp hrow with ⟨orig, horig, hrow2⟩
    rw [← hrow2] at he
    rcases List.mem_append.mp he with hin | hin
    · exact hdim orig horig e hin
    · rw [List.eq_of_mem_replicate hin]
      exact List.length_replicate d c

theorem pad_shape_witness :
    ([[(1 : ℚ), 0], [2, 3]] : List (List ℚ)).length
        = ([[(1 : ℚ)], [2, 3]] : List (List ℚ)).length ∧
    ∀ j : ℕ, j < ([[(1 : ℚ)], [2, 3]] : List (List ℚ)).length →
      ([[(1 : ℚ), 0], [2, 3]] : List (List ℚ)).getD j []
          = ([[(1 : ℚ)], [2, 3]] : List (List ℚ)).getD j [] ++
            List.replicate (padMaxlen [[(1 : ℚ)], [2, 3]]
              - (([[(1 : ℚ)], [2, 3]] : List (List ℚ)).getD j []).length) 0 ∧
      (([[(1 : ℚ), 0], [2, 3]] : List (List ℚ)).getD j []).length
          = padMaxlen [[(1 : ℚ)], [2, 3]] :=
  pad_shape.1 ℚ [[1], [2, 3]] 0 [[1, 0], [2, 3]] 1 1 rfl

lemma convFull_length (a v : List ℚ) :
    (convFull a v).length = a.length + v.length - 1 := by
  simp [convFull]

lemma convSame_length (a v : List ℚ) (ha : a ≠ []) (hv : v ≠ []) :
    (convSame a v).length = max a.length v.length := by
  have h1 : 0 < a.length := List.length_pos.mpr ha
  have h2 : 0 < v.length := List.length_pos.mpr hv
  rw [convSame, List.length_take, List.length_drop, convFull_length]
  omega

/-- C2 counterexample: a length-1 signal with `padding = 1` and
`reference_length = 1` (both valid per the claim) produces a smoothed
output of length 2, because `np.convolve(..., 'same')` returns
`max(n, kernel width)` entries. -/
theorem smooth_length_counterexample :
    ((smooth_reward_curve [5] [5] 1 (some 1)).2).length = 2 ∧ (2 : ℕ) ≠ 1 :=
  ⟨by decide, by decide⟩

/-- C2 (amended): for non-empty `y`, the smoothed output length is
`max n w` where `w = padding * ceil(len_m / 100) + 1` is the kernel
width; this equals the input length exactly when `w ≤ n`. -/
theorem smooth_length (x y : List ℚ) (p : ℕ) (r : Option ℕ) (hy : y ≠ []) :
    ((smooth_reward_curve x y p r).2).length
      = max y.length (p * ((r.getD x.length + 99) / 100) + 1) := by
  have hk : (List.replicate (p * ((r.getD x.length + 99) / 100) + 1) (1 : ℚ)) ≠ [] := by
    simp
  have hones : (List.replicate y.length (1 : ℚ)) ≠ [] := by
    intro hcon
    have h0 : y.length = 0 := by simpa using congrArg List.length hcon
    exact hy (List.length_eq_zero.mp h0)
  simp only [smooth_reward_curve, List.length_zipWith,
    convSame_length _ _ hy hk, convSame_length _ _ hones hk,
    List.length_replicate]
  omega

theorem smooth_length_witness :
    ((smooth_reward_curve [1, 2, 3] [4, 5, 6] 10 none).2).length
      = max ([4, 5, 6] : List ℚ).length
          (10 * (((none : Option ℕ).getD ([1, 2, 3] : List ℚ).length + 99) / 100) + 1) :=
  smooth_length [1, 2, 3] [4, 5, 6] 10 none (by simp)

lemma convFull_singleton (a : List ℚ) : convFull a [1] = a := by
  apply List.ext_getElem
  · simp [convFull_length]
  · intro t h1 h2
    have ht : t < a.length := h2
    simp only [convFull, List.getElem_map, List.getElem_range]
    have hcongr : ∀ j ∈ Finset.range a.length,
        (if j ≤ t ∧ t - j < ([(1 : ℚ)]).length then a.getD j 0 * ([(1 : ℚ)]).getD (t - j) 0 else 0)
          = if j = t then a.getD j 0 else 0 := by
      intro j hj
      by_cases hjt : j = t
      · subst hjt
        simp
      · have hcond : ¬(j ≤ t ∧ t - j < ([(1 : ℚ)]).length) := by
          simp only [List.length_singleton]
          omega
        rw [if_neg hcond, if_neg hjt]
    rw [Finset.sum_congr rfl hcongr,
      Finset.sum_ite_eq' (Finset.range a.length) t (fun j => a.getD j 0),
      if_pos (Finset.mem_range.mpr ht), getD_eq_getElem a 0 ht]

lemma convSame_singleton (a : List ℚ) (ha : a ≠ []) : convSame a [(1 : ℚ)] = a := by
  have h1 : 1 ≤ a.length := List.length_pos.mpr ha
  rw [convSame, convFull_singleton]
  simp only [List.length_singleton, min_eq_right h1, max_eq_left h1]
  simp

lemma zipWith_div_ones (l : List ℚ) :
    List.zipWith (fun a b => a / b) l (List.replicate l.length 1) = l := by
  induction l with
  | nil => rfl
  | cons x l ih =>
    simp only [List.length_cons, List.replicate_succ, List.zipWith_cons_cons, div_one, ih]

lemma smooth_width_one (x y : List ℚ) (p : ℕ) (r : Option ℕ)
    (hy : y ≠ []) (hk : p * ((r.getD x.length + 99) / 100) = 0) :
    (smooth_reward_curve x y p r).2 = y := by
  have hrep : (List.replicate y.length (1 : ℚ)) ≠ [] := by
    intro hcon
    have h0 : y.length = 0 := by simpa using congrArg List.length hcon
    exact hy (List.length_eq_zero.mp h0)
  simp only [smooth_reward_curve, hk, zero_add, List.replicate_one]
  rw [convSame_singleton y hy, convSame_singleton _ hrep]
  exact zipWith_div_ones y

/-- C3 counterexample: a call with `padding = 0 < 1`,
`reference_length = 0 ≤ 0` AND mismatched x/y lengths returns a normal
value (kernel width 1, y returned unchanged) instead of failing with
`InvalidWindow` or `LengthMismatch`. -/
theorem smooth_validation_counterexample :
    smooth_reward_curve [1, 2] [1, 2, 3] 0 (some 0) = ([1, 2], [1, 2, 3]) ∧
    ([1, 2] : List ℚ).length ≠ ([1, 2, 3] : List ℚ).length := by
  constructor
  · simp only [smooth_reward_curve]
    norm_num [convSame, convFull, List.range_succ, Finset.sum_range_succ, List.getD,
      List.getElem?_cons_zero, List.getElem?_cons_succ]
  · decide

/-- C3 (amended): the Smoother performs no input validation: for any
padding, `reference_length = 0` and mismatched x/y lengths, it returns
normally — here with window width `padding * 0 + 1 = 1`, giving `(x, y)`
unchanged. -/
theorem smooth_no_validation (x y : List ℚ) (p : ℕ)
    (hxy : x.length ≠ y.length) (hy : y ≠ []) :
    smooth_reward_curve x y p (some 0) = (x, y) :=
  Prod.ext rfl (smooth_width_one x y p (some 0) hy (by simp))

theorem smooth_no_validation_witness :
    smooth_reward_curve [9] [4, 5] 3 (some 0) = ([9], [4, 5]) :=
  smooth_no_validation [9] [4, 5] 3 (by decide) (by simp)

/-- C8 counterexample: with `padding = 1` and large
`reference_length = 100`, the kernel width is `ceil(100/100) + 1 = 2`,
not 1, and the Smoother is not the identity: y = [0, 2] is smoothed to
[0, 1]. -/
theorem smooth_window_counterexample :
    (smooth_reward_curve [0, 2] [0, 2] 1 (some 100)).2 = [0, 1] ∧
    ([0, 1] : List ℚ) ≠ [0, 2] := by
  constructor
  · simp only [smooth_reward_curve]
    norm_num [convSame, convFull, List.range_succ, Finset.sum_range_succ, List.getD,
      List.getElem?_cons_zero, List.getElem?_cons_succ]
  · decide

/-- C8 (amended): the Smoother is the identity on a non-empty `y`
exactly in the degenerate case where the window width
`padding * ceil(len_m / 100) + 1` evaluates to 1 (`padding = 0` or
`reference_length = 0`); with `padding = 1` the width is
`ceil(reference_length / 100) + 1`, which grows with `reference_length`
instead of evaluating to 1. -/
theorem smooth_identity_width_one (x y : List ℚ) (p : ℕ) (r : Option ℕ)
    (hy : y ≠ []) (hk : p * ((r.getD x.length + 99) / 100) = 0) :
    (smooth_reward_curve x y p r).2 = y :=
  smooth_width_one x y p r hy hk

theorem smooth_identity_width_one_witness :
    (smooth_reward_curve [7] [4, 5, 6] 0 none).2 = [4, 5, 6] :=
  smooth_identity_width_one [7] [4, 5, 6] 0 none (by simp) (by simp)

/-- C10: the smoothed y-output never depends on the values stored in x —
two calls with the same y, padding and (non-null) a_range but different
x inputs return the same smoothed y. -/
theorem smooth_x_noninterference (x1 x2 y : List ℚ) (p : ℕ) (r : ℕ) :
    (smooth_reward_curve x1 y p (some r)).2
      = (smooth_reward_curve x2 y p (some r)).2 := rfl

lemma getD_replicate_lt (n : ℕ) (a d : ℚ) {i : ℕ} (h : i < n) :
    (List.replicate n a).getD i d = a := by
  have hlen : i < (List.replicate n a).length := by simpa
  rw [getD_eq_getElem _ _ hlen, List.getElem_replicate]

lemma convFull_replicate (c : ℚ) (n w : ℕ) (t : ℕ) (ht : t < n + w - 1) :
    (convFull (List.replicate n c) (List.replicate w 1)).getD t 0
      = c * (convFull (List.replicate n 1) (List.replicate w 1)).getD t 0 := by
  have hlen : t < (convFull (List.replicate n c) (List.replicate w 1)).length := by
    rw [convFull_length]
    simpa
  have hlen2 : t < (convFull (List.replicate n 1) (List.replicate w 1)).length := by
    rw [convFull_length]
    simpa
  rw [getD_eq_getElem _ _ hlen, getD_eq_getElem _ _ hlen2]
  simp only [convFull, List.getElem_map, List.getElem_range, List.length_replicate]
  rw [Finset.mul_sum]
  refine Finset.sum_congr rfl (fun j hj => ?_)
  have hjn : j < n := Finset.mem_range.mp hj
  by_cases hc : j ≤ t ∧ t - j < w
  · rw [if_pos hc, if_pos hc, getD_replicate_lt n c 0 hjn, getD_replicate_lt n 1 0 hjn,
      getD_replicate_lt w 1 0 hc.2]
    ring
  · rw [if_neg hc, if_neg hc, mul_zero]

lemma convFull_ones_pos (n w : ℕ) (hn : 1 ≤ n) (hw : 1 ≤ w) (t : ℕ)
    (ht : t < n + w - 1) :
    0 < (convFull (List.replicate n 1) (List.replicate w 1)).getD t 0 := by
  have hlen : t < (convFull (List.replicate n 1) (List.replicate w 1)).length := by
    rw [convFull_length]
    simpa
  rw [getD_eq_getElem _ _ hlen]
  simp only [convFull, List.getElem_map, List.getElem_range, List.length_replicate]
  apply Finset.sum_pos'
  · intro j hj
    by_cases hc : j ≤ t ∧ t - j < w
    · rw [if_pos hc, getD_replicate_lt n (1 : ℚ) 0 (Finset.mem_range.mp hj),
        getD_replicate_lt w 1 0 hc.2]
      norm_num
    · rw [if_neg hc]
  · refine ⟨min t (n - 1), Finset.mem_range.mpr (by omega), ?_⟩
    have hc : min t (n - 1) ≤ t ∧ t - min t (n - 1) < w := by omega
    rw [if_pos hc, getD_replicate_lt n (1 : ℚ) 0 (by omega), getD_replicate_lt w 1 0 hc.2]
    norm_num

lemma convSame_getElem (a v : List ℚ) (i : ℕ) (hi : i < (convSame a v).length)
    (hb : (min a.length v.length - 1) / 2 + i < (convFull a v).length) :
    (convSame a v)[i] = (convFull a v).getD ((min a.length v.length - 1) / 2 + i) 0 := by
  simp only [convSame, List.getElem_take, List.getElem_drop]
  rw [getD_eq_getElem _ _ hb]

/-- C5: for a constant signal `y = c` of length `n` at least the kernel
width, every smoothed output value is exactly `c`, boundary positions
included, because each value-convolution entry is `c` times the
count-convolution entry it is divided by. -/
theorem smooth_constant (c : ℚ) (x : List ℚ) (p n : ℕ) (r : Option ℕ)
    (hn : 1 ≤ n) (hw : p * ((r.getD x.length + 99) / 100) + 1 ≤ n) :
    ∀ z ∈ (smooth_reward_curve x (List.replicate n c) p r).2, z = c := by
  have main : ∀ w : ℕ, 1 ≤ w → w ≤ n →
      ∀ z ∈ List.zipWith (fun a b => a / b)
          (convSame (List.replicate n c) (List.replicate w 1))
          (convSame (List.replicate n 1) (List.replicate w 1)), z = c := by
    intro w hw1 hwn z hz
    obtain ⟨i, hi, hzi⟩ := List.mem_iff_getElem.mp hz
    rw [List.getElem_zipWith] at hzi
    have hrep : (List.replicate n c) ≠ [] := by
      intro hcon
      have := congrArg List.length hcon
      simp at this
      omega
    have hone : (List.replicate n (1 : ℚ)) ≠ [] := by
      intro hcon
      have := congrArg List.length hcon
      simp at this
      omega
    have hker : (List.replicate w (1 : ℚ)) ≠ [] := by
      intro hcon
      have := congrArg List.length hcon
      simp at this
      omega
    have hlc : (convSame (List.replicate n c) (List.replicate w (1 : ℚ))).length = n := by
      rw [convSame_length _ _ hrep hker]
      simp only [List.length_replicate]
      omega
    have hl1 : (convSame (List.replicate n (1 : ℚ)) (List.replicate w (1 : ℚ))).length = n := by
      rw [convSame_length _ _ hone hker]
      simp only [List.length_replicate]
      omega
    have hin : i < n := by
      rw [List.length_zipWith, hlc, hl1] at hi
      simpa using hi
    have hfull : (min (List.replicate n c).length (List.replicate w (1 : ℚ)).length - 1) / 2 + i
        < (convFull (List.replicate n c) (List.replicate w 1)).length := by
      rw [convFull_length]
      simp only [List.length_replicate]
      omega
    have hfull1 : (min (List.replicate n (1 : ℚ)).length (List.replicate w (1 : ℚ)).length - 1) / 2 + i
        < (convFull (List.replicate n 1) (List.replicate w 1)).length := by
      rw [convFull_length]
      simp only [List.length_replicate]
      omega
    rw [convSame_getElem _ _ i (by omega) hfull, convSame_getElem _ _ i (by omega) hfull1] at hzi
    simp only [List.length_replicate] at hzi
    have ht : (min n w - 1) / 2 + i < n + w - 1 := by omega
    rw [convFull_replicate c n w _ ht] at hzi
    have hpos := convFull_ones_pos n w hn hw1 _ ht
    rw [← hzi, mul_div_cancel_right₀ c (ne_of_gt hpos)]
  intro z hz
  have hbody : (smooth_reward_curve x (List.replicate n c) p r).2
      = List.zipWith (fun a b => a / b)
          (convSame (List.replicate n c)
            (List.replicate (p * ((r.getD x.length + 99) / 100) + 1) 1))
          (convSame (List.replicate n 1)
            (List.replicate (p * ((r.getD x.length + 99) / 100) + 1) 1)) := by
    simp only [smooth_reward_curve, List.length_replicate]
  rw [hbody] at hz
  exact main _ (by omega) hw z hz

theorem smooth_constant_witness :
    (1 ≤ 3) ∧ ∀ z ∈ (smooth_reward_curve [1, 2, 3] (List.replicate 3 7) 1 none).2, z = 7 :=
  ⟨by decide, smooth_constant 7 [1, 2, 3] 1 3 none (by decide) (by decide)⟩

lemma interpSorted_fifty (s : List ℚ) (hs : s ≠ []) :
    interpSorted 50 s
      = if s.length % 2 = 1 then s.getD (s.length / 2) 0
        else (s.getD (s.length / 2 - 1) 0 + s.getD (s.length / 2) 0) / 2 := by
  have hm : 1 ≤ s.length := List.length_pos.mpr hs
  rcases Nat.even_or_odd s.length with he | ho
  · obtain ⟨t, ht⟩ := he
    have ht1 : 1 ≤ t := by omega
    have hmod : ¬s.length % 2 = 1 := by omega
    rw [if_neg hmod]
    simp only [interpSorted]
    have hq : (50 : ℚ) * ((s.length : ℚ) - 1) / 100 = ((t : ℚ) - 1) + 1 / 2 := by
      have hcast : (s.length : ℚ) = 2 * (t : ℚ) := by
        rw [ht]
        push_cast
        ring
      rw [hcast]
      ring
    rw [hq]
    have hfloor : Int.floor (((t : ℚ) - 1) + 1 / 2) = (t : ℤ) - 1 := by
      rw [Int.floor_eq_iff]
      constructor
      · push_cast
        linarith
      · push_cast
        linarith
    rw [hfloor]
    have htoNat : ((t : ℤ) - 1).toNat = t - 1 := by omega
    rw [htoNat]
    have hcast2 : ((t - 1 : ℕ) : ℚ) = (t : ℚ) - 1 := by
      rw [Nat.cast_sub ht1, Nat.cast_one]
    rw [hcast2]
    have hii : t - 1 + 1 = t := by omega
    rw [hii]
    have hdiv : s.length / 2 = t := by omega
    rw [hdiv]
    ring
  · obtain ⟨t, ht⟩ := ho
    have hmod : s.length % 2 = 1 := by omega
    rw [if_pos hmod]
    simp only [interpSorted]
    have hq : (50 : ℚ) * ((s.length : ℚ) - 1) / 100 = (t : ℚ) := by
      have hcast : (s.length : ℚ) = 2 * (t : ℚ) + 1 := by
        rw [ht]
        push_cast
        ring
      rw [hcast]
      ring
    rw [hq, Int.floor_natCast, Int.toNat_natCast]
    have hdiv : s.length / 2 = t := by omega
    rw [hdiv]
    ring

lemma nanmedian_eq_fifty (col : List (Option ℚ)) :
    nanmedian col = nanpercentile 50 col := by
  simp only [nanmedian, nanpercentile]
  by_cases hemp : (col.filterMap id).isEmpty
  · rw [if_pos hemp, if_pos hemp]
  · rw [if_neg hemp, if_neg hemp]
    congr 1
    have hne : col.filterMap id ≠ [] := by
      intro hcon
      rw [hcon] at hemp
      exact hemp rfl
    have hsort : (col.filterMap id).insertionSort (fun a b => a ≤ b) ≠ [] := by
      intro hcon
      have hlen := congrArg List.length hcon
      rw [List.length_insertionSort] at hlen
      exact hne (List.length_eq_zero.mp (by simpa using hlen))
    rw [interpSorted_fifty _ hsort, List.length_insertionSort]

/-- C7: the Aggregator computes the median and quartiles per column with
sentinels excluded: the median agrees with linear-interpolation
percentile 50 (so the even-count averaging rule matches interpolation
between order statistics), any percentile of a column equals the
spec-side percentile of the column's non-sentinel values, an all-sentinel
column yields the sentinel for all three statistics, and a sentinel-free
column matches the direct computation over its values. -/
theorem aggregator_column_stats :
    (∀ (xs ys : List (List ℚ)) (pys : List (List (Option ℚ))) (iy : Int) (my : ℕ)
        (s : SummaryCurve),
      pad (ys.map (List.map some)) none = .ok (pys, iy, my) →
      plot_with_iqr xs ys = .ok s →
      s.median = (List.range (padMaxlen (ys.map (List.map some)))).map
          (fun j => nanmedian (column pys j)) ∧
      s.q25 = (List.range (padMaxlen (ys.map (List.map some)))).map
          (fun j => nanpercentile 25 (column pys j)) ∧
      s.q75 = (List.range (padMaxlen (ys.map (List.map some)))).map
          (fun j => nanpercentile 75 (column pys j))) ∧
    (∀ col : List (Option ℚ),
      nanmedian col = nanpercentile 50 col ∧
      ((∀ o ∈ col, o = none) →
        nanmedian col = none ∧ nanpercentile 25 col = none ∧ nanpercentile 75 col = none) ∧
      (∀ q : ℚ, nanpercentile q col = percentileSpec q (col.filterMap id)) ∧
      (∀ (q : ℚ) (vs : List ℚ), col = vs.map some →
        nanpercentile q col = percentileSpec q vs)) := by
  constructor
  · intro xs ys pys iy my s hpy hok
    rcases hpx : pad (xs.map (List.map some)) (none : Option ℚ) with e | ⟨pxs, ix, mx⟩
    · rw [plot_with_iqr_err_left xs ys e hpx] at hok
      cases hok
    · rw [plot_with_iqr_eq xs ys hpx hpy] at hok
      have hs := (Except.ok.injEq _ _).mp hok
      rw [← hs]
      exact ⟨rfl, rfl, rfl⟩
  · intro col
    refine ⟨nanmedian_eq_fifty col, ?_, ?_, ?_⟩
    · intro hall
      have hnil : col.filterMap id = [] :=
        List.filterMap_eq_nil_iff.mpr (fun o ho => hall o ho)
      exact ⟨by simp [nanmedian, hnil], by simp [nanpercentile, hnil],
        by simp [nanpercentile, hnil]⟩
    · intro q
      rfl
    · intro q vs hcol
      subst hcol
      have hfm : (vs.map some).filterMap id = vs := by
        simp [List.filterMap_map]
      simp only [nanpercentile, percentileSpec, hfm]

theorem aggregator_column_stats_witness :
    ((SummaryCurve.mk [some (1 : ℚ)] [nanmedian [some (2 : ℚ)]]
        [nanpercentile 25 [some (2 : ℚ)]] [nanpercentile 75 [some (2 : ℚ)]]).median
          = (List.range (padMaxlen (([[(2 : ℚ)]] : List (List ℚ)).map (List.map some)))).map
              (fun j => nanmedian (column [[some (2 : ℚ)]] j)) ∧
      (SummaryCurve.mk [some (1 : ℚ)] [nanmedian [some (2 : ℚ)]]
        [nanpercentile 25 [some (2 : ℚ)]] [nanpercentile 75 [some (2 : ℚ)]]).q25
          = (List.range (padMaxlen (([[(2 : ℚ)]] : List (List ℚ)).map (List.map some)))).map
              (fun j => nanpercentile 25 (column [[some (2 : ℚ)]] j)) ∧
      (SummaryCurve.mk [some (1 : ℚ)] [nanmedian [some (2 : ℚ)]]
        [nanpercentile 25 [some (2 : ℚ)]] [nanpercentile 75 [some (2 : ℚ)]]).q75
          = (List.range (padMaxlen (([[(2 : ℚ)]] : List (List ℚ)).map (List.map some)))).map
              (fun j => nanpercentile 75 (column [[some (2 : ℚ)]] j))) ∧
    nanmedian [some (1 : ℚ), none, some 3] = nanpercentile 50 [some (1 : ℚ), none, some 3] ∧
    (nanmedian ([none] : List (Option ℚ)) = none ∧
      nanpercentile 25 ([none] : List (Option ℚ)) = none ∧
      nanpercentile 75 ([none] : List (Option ℚ)) = none) :=
  ⟨aggregator_column_stats.1 [[1]] [[2]] [[some 2]] 0 0
      (SummaryCurve.mk [some (1 : ℚ)] [nanmedian [some (2 : ℚ)]]
        [nanpercentile 25 [some (2 : ℚ)]] [nanpercentile 75 [some (2 : ℚ)]]) rfl rfl,
    (aggregator_column_stats.2 [some 1, none, some 3]).1,
    (aggregator_column_stats.2 [none]).2.1 (by simp)⟩

lemma nanmedian_singleton (v : ℚ) : nanmedian [some v] = some v := by
  have hs : ([some v] : List (Option ℚ)).filterMap id = [v] := rfl
  simp only [nanmedian, hs]
  norm_num

lemma nanpercentile_singleton (q v : ℚ) : nanpercentile q [some v] = some v := by
  have hs : ([some v] : List (Option ℚ)).filterMap id = [v] := rfl
  simp only [nanpercentile, hs]
  norm_num [interpSorted]

lemma range_map_stat (y : List ℚ) (g : Option ℚ → Option ℚ)
    (hg : ∀ v : ℚ, g (some v) = some v) :
    (List.range y.length).map (fun j => g ((y.map some).getD j none)) = y.map some := by
  apply List.ext_getElem
  · simp
  · intro j h1 h2
    have hj : j < (y.map some).length := by simpa using h2
    simp only [List.getElem_map, List.getElem_range]
    rw [getD_eq_getElem _ _ hj]
    simp only [List.getElem_map]
    exact hg _

/-- C9: for a group of exactly one run, the summary's x-sequence is the
run's x, the median equals the run's y at every position, and both
quartiles equal the median. -/
theorem single_run_summary (x y : List ℚ) :
    plot_with_iqr [x] [y] = .ok ⟨x.map some, y.map some, y.map some, y.map some⟩ := by
  have hx := pad_singleton (x.map some) (none : Option ℚ)
  have hy := pad_singleton (y.map some) (none : Option ℚ)
  have heq := plot_with_iqr_eq [x] [y] hx hy
  rw [heq]
  refine congrArg Except.ok ?_
  have hL : padMaxlen (([y] : List (List ℚ)).map (List.map some)) = y.length := by
    simp [padMaxlen]
  have hmed : (List.range (padMaxlen (([y] : List (List ℚ)).map (List.map some)))).map
      (fun j => nanmedian (column [y.map some] j)) = y.map some := by
    rw [hL]
    exact range_map_stat y (fun o => nanmedian [o]) (fun v => nanmedian_singleton v)
  have hq25 : (List.range (padMaxlen (([y] : List (List ℚ)).map (List.map some)))).map
      (fun j => nanpercentile 25 (column [y.map some] j)) = y.map some := by
    rw [hL]
    exact range_map_stat y (fun o => nanpercentile 25 [o]) (fun v => nanpercentile_singleton 25 v)
  have hq75 : (List.range (padMaxlen (([y] : List (List ℚ)).map (List.map some)))).map
      (fun j => nanpercentile 75 (column [y.map some] j)) = y.map some := by
    rw [hL]
    exact range_map_stat y (fun o => nanpercentile 75 [o]) (fun v => nanpercentile_singleton 75 v)
  have hx0 : [x.map some].getD (Int.toNat 0) [] = x.map some := rfl
  rw [hmed, hq25, hq75, hx0]

end Plot
